import Mathlib

/-!
Verification of the conversation-orchestration engine in
`examples/all_refactored.py` against its natural-language specification.

Pure functions of the source are embedded as Lean functions over `List`
and `String`; Python dicts (insertion ordered, unique keys) are embedded
as association lists; Python `None` becomes `Option.none`; exceptions
become `Except`/explicit branches; the asyncio consumer loop becomes a
labelled transition system whose traces we reason about.
-/

namespace Agents

/-! ## State reducers (source: identity_reducer, concat_if_not_none, merge_kv_reducer)

Source `concat_if_not_none(a, b)`:
  if a is None and b is None: return []
  if b is None: return a
  if a is None: return b
  return list(set(a + b))

`list(set(...))` returns the distinct elements of `a + b` in an
unspecified (hash) order; we embed it as `List.dedup`, which has exactly
the same membership semantics.  The element type in the source state is
`List[str]` (field `key_points`), hence `String` elements here. -/

def concatIfNotNone (a b : Option (List String)) : List String :=
  match a, b with
  | none, none => []
  | some la, none => la
  | none, some lb => lb
  | some la, some lb => (la ++ lb).dedup

/-! A Python dict with `Optional[str]` values, embedded as an
insertion-ordered association list with (in the reachable states) unique
keys.  `none` as a value is the delete marker used by
`merge_kv_reducer`. -/

abbrev KV := List (String × Option String)

/-- Lookup of a key: the first binding wins (Python dicts have unique
keys, so there is at most one). -/
def kvLookup : KV → String → Option (Option String)
  | [], _ => none
  | (k', v') :: t, k => if k' = k then some v' else kvLookup t k

/-- Python `base[k] = v`: replace the value of an existing binding in
place (keeping its position), else append the new binding at the end. -/
def kvSet : KV → String → Option String → KV
  | [], k, v => [(k, v)]
  | (k', v') :: t, k, v => if k' = k then (k, v) :: t else (k', v') :: kvSet t k v

/-- Python `base.pop(k, None)`: remove the binding of `k` if present.
On key-unique dicts this removes exactly that one binding. -/
def kvErase : KV → String → KV
  | [], _ => []
  | (k', v') :: t, k => if k' = k then kvErase t k else (k', v') :: kvErase t k

/-- One step of the `for k, v in b.items()` loop of `merge_kv_reducer`:
a `None` value deletes the key, any other value sets it. -/
def kvApply (base : KV) (e : String × Option String) : KV :=
  match e.2 with
  | none => kvErase base e.1
  | some v => kvSet base e.1 (some v)

/-- Source `merge_kv_reducer(a, b)`:
  base = dict(a or {}); if not b: return base;
  for k, v in b.items(): if v is None: base.pop(k, None) else base[k] = v;
  return base.
The `dict(...)` copy is implicit (Lean values are immutable), which also
settles the purity requirement of the spec: neither argument can be
mutated. -/
def mergeKvReducer (a b : KV) : KV :=
  if b.isEmpty then a else b.foldl kvApply a

/-- Python dict equality: two dicts are equal iff they bind the same
keys to the same values (insertion order is irrelevant). -/
def kvEquiv (a b : KV) : Prop :=
  ∀ k, kvLookup a k = kvLookup b k

theorem mergeKvReducer_eq_foldl (a b : KV) : mergeKvReducer a b = b.foldl kvApply a := by
  cases b <;> simp [mergeKvReducer]

theorem kvLookup_kvSet_self (d : KV) (k : String) (v : Option String) :
    kvLookup (kvSet d k v) k = some v := by
  induction d with
  | nil => simp [kvSet, kvLookup]
  | cons e t ih =>
    obtain ⟨k', v'⟩ := e
    by_cases h : k' = k
    · subst h; simp [kvSet, kvLookup]
    · simp [kvSet, kvLookup, h, ih]

theorem kvLookup_kvSet_ne (d : KV) (k k' : String) (v : Option String) (h : k' ≠ k) :
    kvLookup (kvSet d k v) k' = kvLookup d k' := by
  have hk : k ≠ k' := Ne.symm h
  induction d with
  | nil => simp [kvSet, kvLookup, hk]
  | cons e t ih =>
    obtain ⟨k0, v0⟩ := e
    by_cases h0 : k0 = k
    · subst h0
      simp [kvSet, kvLookup, hk]
    · by_cases h1 : k0 = k'
      · simp [kvSet, kvLookup, h0, h1, h]
      · simp [kvSet, kvLookup, h0, h1, ih]

theorem kvLookup_kvErase_self (d : KV) (k : String) :
    kvLookup (kvErase d k) k = none := by
  induction d with
  | nil => simp [kvErase, kvLookup]
  | cons e t ih =>
    obtain ⟨k0, v0⟩ := e
    by_cases h0 : k0 = k
    · simpa [kvErase, h0] using ih
    · simp [kvErase, h0, kvLookup, ih]

theorem kvLookup_kvErase_ne (d : KV) (k k' : String) (h : k' ≠ k) :
    kvLookup (kvErase d k) k' = kvLookup d k' := by
  induction d with
  | nil => simp [kvErase, kvLookup]
  | cons e t ih =>
    obtain ⟨k0, v0⟩ := e
    by_cases h0 : k0 = k
    · subst h0
      have hk : k0 ≠ k' := Ne.symm h
      simp [kvErase, kvLookup, hk, ih]
    · by_cases h1 : k0 = k'
      · simp [kvErase, kvLookup, h0, h1, h]
      · simp [kvErase, kvLookup, h0, h1, ih]

theorem kvLookup_eq_none_of_not_mem (d : KV) (k : String)
    (h : k ∉ d.map Prod.fst) : kvLookup d k = none := by
  induction d with
  | nil => simp [kvLookup]
  | cons e t ih =>
    obtain ⟨k0, v0⟩ := e
    simp only [List.map_cons, List.mem_cons, not_or] at h
    have hne : k0 ≠ k := fun hh => h.1 hh.symm
    simp [kvLookup, hne, ih h.2]

theorem kvLookup_kvApply_self (d : KV) (k : String) (v : Option String) :
    kvLookup (kvApply d (k, v)) k =
      match v with
      | none => none
      | some w => some (some w) := by
  cases v with
  | none => simpa [kvApply] using kvLookup_kvErase_self d k
  | some w => simpa [kvApply] using kvLookup_kvSet_self d k (some w)

theorem kvLookup_kvApply_ne (d : KV) (k k' : String) (v : Option String) (h : k' ≠ k) :
    kvLookup (kvApply d (k, v)) k' = kvLookup d k' := by
  cases v with
  | none => simpa [kvApply] using kvLookup_kvErase_ne d k k' h
  | some w => simpa [kvApply] using kvLookup_kvSet_ne d k k' (some w) h

/-- Characterisation of the merge loop: with key-unique `b` (every
Python dict is), the merged dict binds `k` to the update value when the
update sets it, drops `k` when the update carries the delete marker, and
falls back to the base otherwise. -/
theorem foldl_kvApply_lookup :
    ∀ (b : List (String × Option String)) (a : KV),
      (b.map Prod.fst).Nodup → ∀ k : String,
      kvLookup (b.foldl kvApply a) k =
        match kvLookup b k with
        | some none => none
        | some (some v) => some (some v)
        | none => kvLookup a k := by
  intro b
  induction b with
  | nil => intro a _ k; simp [kvLookup]
  | cons e t ih =>
    intro a hnd k
    obtain ⟨kb, vb⟩ := e
    simp only [List.map_cons, List.nodup_cons] at hnd
    obtain ⟨hkb, hndt⟩ := hnd
    by_cases hk : k = kb
    · subst hk
      have ht : kvLookup t k = none :=
        kvLookup_eq_none_of_not_mem t k hkb
      have := ih (kvApply a (k, vb)) hndt k
      simp only [List.foldl_cons] at *
      rw [this, ht]
      have happ := kvLookup_kvApply_self a k vb
      cases vb with
      | none => simp [kvLookup, happ]
      | some w => simp [kvLookup, happ]
    · have hne : kb ≠ k := fun hh => hk hh.symm
      have := ih (kvApply a (kb, vb)) hndt k
      simp only [List.foldl_cons] at *
      rw [this, kvLookup_kvApply_ne a kb k vb hk]
      simp [kvLookup, hne]

/-! ## Claims C3 and C8 -/

/-- Claim C3, counterexample: `merge_kv_reducer` is neither commutative
nor associative as dict-valued functions (`kvEquiv` is Python dict
equality).  Commutativity fails because on a shared key the update side
wins (last write wins); associativity fails because a delete marker is
absorbed when merged into an empty update first. -/
theorem C3_counterexample :
    (¬ kvEquiv (mergeKvReducer [("a", some "1")] [("a", some "2")])
        (mergeKvReducer [("a", some "2")] [("a", some "1")]))
    ∧ ¬ kvEquiv
        (mergeKvReducer (mergeKvReducer [("k", some "0")] []) [("k", none)])
        (mergeKvReducer [("k", some "0")] (mergeKvReducer [] [("k", none)])) := by
  constructor
  · intro h
    exact absurd (h "a") (by decide)
  · intro h
    exact absurd (h "k") (by decide)

/-- Claim C3 (amended): the union-dedup reducer `concat_if_not_none` is
commutative up to set-equality of the result, but the key-merge-with-
delete reducer `merge_kv_reducer` is neither commutative nor associative
(under Python dict equality), even restricted to key-unique dicts. -/
theorem C3_amended_reducer_algebra :
    (∀ (a b : Option (List String)) (x : String),
        x ∈ concatIfNotNone a b ↔ x ∈ concatIfNotNone b a)
    ∧ ¬ (∀ (a b : KV), (a.map Prod.fst).Nodup → (b.map Prod.fst).Nodup →
          kvEquiv (mergeKvReducer a b) (mergeKvReducer b a))
    ∧ ¬ (∀ (a b c : KV), (a.map Prod.fst).Nodup → (b.map Prod.fst).Nodup →
          (c.map Prod.fst).Nodup →
          kvEquiv (mergeKvReducer (mergeKvReducer a b) c)
            (mergeKvReducer a (mergeKvReducer b c))) := by
  refine ⟨?_, ?_, ?_⟩
  · intro a b x
    rcases a with _ | la <;> rcases b with _ | lb <;>
      simp [concatIfNotNone, List.mem_dedup, List.mem_append, or_comm]
  · intro h
    have := h [("a", some "1")] [("a", some "2")] (by decide) (by decide) "a"
    exact absurd this (by decide)
  · intro h
    have := h [("k", some "0")] [] [("k", none)]
      (by decide) (by decide) (by decide) "k"
    exact absurd this (by decide)

/-- Claim C8: `merge_kv_reducer(base, update)` applies every entry of
the (key-unique) update onto the base: a `none`-valued entry deletes the
key, any other entry sets it, and keys untouched by the update keep
their base binding; purity holds by construction in this embedding
(both arguments are immutable values and the source copies the base
with `dict(...)` before mutating).  Includes the concrete example from
the spec. -/
theorem C8_merge_kv_semantics :
    (∀ (a b : KV), (b.map Prod.fst).Nodup → ∀ k : String,
        kvLookup (mergeKvReducer a b) k =
          match kvLookup b k with
          | some none => none
          | some (some v) => some (some v)
          | none => kvLookup a k)
    ∧ mergeKvReducer [("a", some "1"), ("b", some "2")] [("b", none), ("c", some "3")]
        = [("a", some "1"), ("c", some "3")] := by
  constructor
  · intro a b hb k
    rw [mergeKvReducer_eq_foldl]
    exact foldl_kvApply_lookup b a hb k
  · decide

/-- Witness for C8 at a concrete input: the deleted key `b` is absent
from the merged dict. -/
theorem C8_merge_kv_semantics_witness :
    (([(("b" : String), (none : Option String)), ("c", some "3")].map Prod.fst).Nodup) ∧
      kvLookup (mergeKvReducer [("a", some "1"), ("b", some "2")]
          [("b", none), ("c", some "3")]) "b" =
        match kvLookup [(("b" : String), (none : Option String)), ("c", some "3")] "b" with
        | some none => none
        | some (some v) => some (some v)
        | none => kvLookup [("a", some "1"), ("b", some "2")] "b" :=
  ⟨by decide, C8_merge_kv_semantics.1 _ _ (by decide) "b"⟩

/-! ## Message sanitizer (source: sanitize_message)

Python strings are embedded as `List Char`.  `pyStarts needle hay`
says the needle matches at the front of the hay, `pyFind` is Python
`str.find` (with `none` for -1), `pyStrip` is `str.strip()` for the
ASCII whitespace characters, and `sanitizeMessage` mirrors the source
line by line: early return on empty message or empty marker list, a
scan over the markers keeping the strictly smallest match position
(initialised to `len(message)`), then prefix/suffix split with
stripping. -/

def pyStarts : List Char → List Char → Bool
  | [], _ => true
  | _ :: _, [] => false
  | n :: ns, h :: hs => n == h && pyStarts ns hs

/-- Python `hay.find(needle)`: the least index at which the needle
matches, `none` when there is no match anywhere (source -1). -/
def pyFind : List Char → List Char → Option Nat
  | [], needle => if pyStarts needle [] then some 0 else none
  | c :: t, needle =>
      if pyStarts needle (c :: t) then some 0
      else (pyFind t needle).map (· + 1)

def pyIsSpace (c : Char) : Bool :=
  c == ' ' || c == '\t' || c == '\n' || c == '\r' ||
    c == Char.ofNat 11 || c == Char.ofNat 12

/-- Python `s.strip()`: drop leading and trailing whitespace. -/
def pyStrip (s : List Char) : List Char :=
  ((s.dropWhile pyIsSpace).reverse.dropWhile pyIsSpace).reverse

/-- One iteration of the `for marker in sanitized_keywords` loop: keep
the strictly smaller match position (so the first-declared marker wins
a tie). -/
def scanStep (message : List Char) (st : Nat × Option (List Char))
    (marker : List Char) : Nat × Option (List Char) :=
  match pyFind message marker with
  | some pos => if pos < st.1 then (pos, some marker) else st
  | none => st

def scanMarkers (message : List Char) (keywords : List (List Char)) :
    Nat × Option (List Char) :=
  keywords.foldl (scanStep message) (message.length, none)

def sanitizeMessage (message : List Char) (keywords : List (List Char)) :
    List Char × Bool × Option (List Char) :=
  if message.isEmpty || keywords.isEmpty then (message, false, none)
  else
    let st := scanMarkers message keywords
    match st.2 with
    | some _ =>
        (pyStrip (message.take st.1), true, some (pyStrip (message.drop st.1)))
    | none => (message, false, none)

/-! Specification-side scan, written from the words of the spec: the
earliest offset in the text (an index of one of its characters) at
which any marker occurs, ties at the same offset broken in favour of
the first-declared marker. -/

def firstMatchAt (keywords : List (List Char)) (s : List Char) :
    Option (List Char) :=
  match keywords with
  | [] => none
  | m :: rest => if pyStarts m s then some m else firstMatchAt rest s

def specScanAux (keywords : List (List Char)) : List Char → Option (Nat × List Char)
  | [] => none
  | c :: rest =>
      match firstMatchAt keywords (c :: rest) with
      | some m => some (0, m)
      | none => (specScanAux keywords rest).map (fun p => (p.1 + 1, p.2))

/-- The earliest marker occurrence in the text, per the spec wording. -/
def specScan (text : List Char) (keywords : List (List Char)) :
    Option (Nat × List Char) :=
  specScanAux keywords text

theorem pyFind_starts (hay : List Char) : ∀ (needle : List Char) (p : Nat),
    pyFind hay needle = some p → pyStarts needle (hay.drop p) = true := by
  induction hay with
  | nil =>
    intro needle p h
    by_cases hs : pyStarts needle [] = true
    · simp [pyFind, hs] at h
      subst h
      exact hs
    · simp [pyFind, hs] at h
  | cons c t ih =>
    intro needle p h
    by_cases hs : pyStarts needle (c :: t) = true
    · simp [pyFind, hs] at h
      subst h
      exact hs
    · simp [pyFind, hs] at h
      obtain ⟨q, hq, hpq⟩ := h
      subst hpq
      exact ih needle q hq

theorem pyFind_eq_some_of (hay : List Char) : ∀ (needle : List Char) (i : Nat),
    pyStarts needle (hay.drop i) = true →
    (∀ j, j < i → pyStarts needle (hay.drop j) = false) →
    pyFind hay needle = some i := by
  induction hay with
  | nil =>
    intro needle i h1 h2
    cases i with
    | zero =>
      rw [List.drop_zero] at h1
      simp [pyFind, h1]
    | succ i' =>
      exfalso
      have h0 := h2 0 (Nat.succ_pos i')
      rw [List.drop_nil] at h0 h1
      rw [h0] at h1
      exact Bool.noConfusion h1
  | cons c t ih =>
    intro needle i h1 h2
    cases i with
    | zero =>
      rw [List.drop_zero] at h1
      simp [pyFind, h1]
    | succ i' =>
      have h0 : pyStarts needle (c :: t) = false := h2 0 (Nat.succ_pos i')
      have ht : pyFind t needle = some i' := by
        apply ih needle i' h1
        intro j hj
        exact h2 (j + 1) (Nat.succ_lt_succ hj)
      simp [pyFind, h0, ht]

theorem firstMatchAt_some : ∀ (K : List (List Char)) (s m : List Char),
    firstMatchAt K s = some m →
    ∃ K1 K2, K = K1 ++ m :: K2 ∧ pyStarts m s = true ∧
      ∀ m' ∈ K1, pyStarts m' s = false := by
  intro K
  induction K with
  | nil => intro s m h; simp [firstMatchAt] at h
  | cons m0 rest ih =>
    intro s m h
    by_cases hs : pyStarts m0 s = true
    · simp [firstMatchAt, hs] at h
      subst h
      exact ⟨[], rest, rfl, hs, by intro m' hm'; simp at hm'⟩
    · simp [firstMatchAt, hs] at h
      obtain ⟨K1, K2, hK, hm, hK1⟩ := ih s m h
      refine ⟨m0 :: K1, K2, by rw [hK, List.cons_append], hm, ?_⟩
      intro m' hm'
      rcases List.mem_cons.mp hm' with rfl | hmem
      · exact Bool.not_eq_true _ ▸ by simpa using hs
      · exact hK1 m' hmem

theorem firstMatchAt_none : ∀ (K : List (List Char)) (s : List Char),
    firstMatchAt K s = none → ∀ m ∈ K, pyStarts m s = false := by
  intro K
  induction K with
  | nil => intro s _ m hm; simp at hm
  | cons m0 rest ih =>
    intro s h m hm
    by_cases hs : pyStarts m0 s = true
    · simp [firstMatchAt, hs] at h
    · have hrest : firstMatchAt rest s = none := by simpa [firstMatchAt, hs] using h
      rcases List.mem_cons.mp hm with rfl | hmem
      · simpa using hs
      · exact ih s hrest m hmem

theorem specScanAux_none (K : List (List Char)) : ∀ (text : List Char),
    specScanAux K text = none →
    ∀ j, j < text.length → firstMatchAt K (text.drop j) = none := by
  intro text
  induction text with
  | nil => intro _ j hj; simp at hj
  | cons c t ih =>
    intro h j hj
    cases hfm : firstMatchAt K (c :: t) with
    | some m => simp [specScanAux, hfm] at h
    | none =>
      have ht : specScanAux K t = none := by
        simpa [specScanAux, hfm] using h
      cases j with
      | zero => exact hfm
      | succ j' => exact ih ht j' (Nat.lt_of_succ_lt_succ hj)

theorem specScanAux_some (K : List (List Char)) :
    ∀ (text : List Char) (i : Nat) (m : List Char),
    specScanAux K text = some (i, m) →
    i < text.length ∧ firstMatchAt K (text.drop i) = some m ∧
      ∀ j, j < i → firstMatchAt K (text.drop j) = none := by
  intro text
  induction text with
  | nil => intro i m h; simp [specScanAux] at h
  | cons c t ih =>
    intro i m h
    cases hfm : firstMatchAt K (c :: t) with
    | some m0 =>
      have heq : some ((0 : Nat), m0) = some (i, m) := by
        rw [← h]; simp [specScanAux, hfm]
      injection heq with heq
      cases heq
      refine ⟨Nat.succ_pos _, hfm, ?_⟩
      intro j hj
      exact absurd hj (Nat.not_lt_zero j)
    | none =>
      have h' : (specScanAux K t).map (fun p => (p.1 + 1, p.2)) = some (i, m) := by
        rw [← h]; simp [specScanAux, hfm]
      obtain ⟨⟨i', m'⟩, ht, heq⟩ := Option.map_eq_some'.mp h'
      simp only at heq
      cases heq
      obtain ⟨h1, h2, h3⟩ := ih _ _ ht
      refine ⟨Nat.succ_lt_succ h1, h2, ?_⟩
      intro j hj
      cases j with
      | zero => exact hfm
      | succ j' => exact h3 j' (Nat.lt_of_succ_lt_succ hj)

theorem foldl_scanStep_id (message : List Char) :
    ∀ (K : List (List Char)) (e : Nat) (o : Option (List Char)),
    (∀ m ∈ K, ∀ p, pyFind message m = some p → e ≤ p) →
    K.foldl (scanStep message) (e, o) = (e, o) := by
  intro K
  induction K with
  | nil => intro e o _; rfl
  | cons m0 rest ih =>
    intro e o h
    have hstep : scanStep message (e, o) m0 = (e, o) := by
      cases hf : pyFind message m0 with
      | none => simp [scanStep, hf]
      | some p =>
        have := h m0 (List.mem_cons_self _ _) p hf
        simp [scanStep, hf, Nat.not_lt.mpr this]
    rw [List.foldl_cons, hstep]
    exact ih e o (fun m hm p hp => h m (List.mem_cons_of_mem _ hm) p hp)

theorem foldl_scanStep_win (message : List Char) :
    ∀ (K1 : List (List Char)) (m : List Char) (K2 : List (List Char))
      (i e : Nat) (o : Option (List Char)),
    i < e →
    pyFind message m = some i →
    (∀ m' ∈ K1, ∀ p, pyFind message m' = some p → i < p) →
    (∀ m' ∈ K2, ∀ p, pyFind message m' = some p → i ≤ p) →
    (K1 ++ m :: K2).foldl (scanStep message) (e, o) = (i, some m) := by
  intro K1
  induction K1 with
  | nil =>
    intro m K2 i e o hie hfind _ hK2
    simp only [List.nil_append, List.foldl_cons]
    have hstep : scanStep message (e, o) m = (i, some m) := by
      simp [scanStep, hfind, hie]
    rw [hstep]
    exact foldl_scanStep_id message K2 i (some m) hK2
  | cons m1 K1' ih =>
    intro m K2 i e o hie hfind hK1 hK2
    simp only [List.cons_append, List.foldl_cons]
    have hm1 := hK1 m1 (List.mem_cons_self _ _)
    have hK1' : ∀ m' ∈ K1', ∀ p, pyFind message m' = some p → i < p :=
      fun m' hm' p hp => hK1 m' (List.mem_cons_of_mem _ hm') p hp
    cases hf : pyFind message m1 with
    | none =>
      have hstep : scanStep message (e, o) m1 = (e, o) := by simp [scanStep, hf]
      rw [hstep]
      exact ih m K2 i e o hie hfind hK1' hK2
    | some p =>
      have hip : i < p := hm1 p hf
      by_cases hpe : p < e
      · have hstep : scanStep message (e, o) m1 = (p, some m1) := by
          simp [scanStep, hf, hpe]
        rw [hstep]
        exact ih m K2 i p (some m1) hip hfind hK1' hK2
      · have hstep : scanStep message (e, o) m1 = (e, o) := by
          simp [scanStep, hf, hpe]
        rw [hstep]
        exact ih m K2 i e o hie hfind hK1' hK2

/-- Claim C5: `sanitize_message` splits the text at the earliest offset
at which any marker occurs (ties at the same offset go to the
first-declared marker, which is exactly what `specScan` computes),
returning the stripped prefix, `true`, and the stripped suffix from the
marker on; when no marker occurs in the text it returns the input
unchanged with `false` and `none`.  The two concrete examples of the
spec are included. -/
theorem C5_sanitize_earliest (message : List Char) (keywords : List (List Char)) :
    (∀ i m, specScan message keywords = some (i, m) →
        scanMarkers message keywords = (i, some m) ∧
        sanitizeMessage message keywords =
          (pyStrip (message.take i), true, some (pyStrip (message.drop i))))
    ∧ (specScan message keywords = none →
        sanitizeMessage message keywords = (message, false, none))
    ∧ sanitizeMessage "hello [INTERNAL] secret".toList
        ["[INTERNAL]".toList, "[CRITICAL]".toList] =
        ("hello".toList, true, some "[INTERNAL] secret".toList)
    ∧ sanitizeMessage "hello world".toList
        ["[INTERNAL]".toList, "[CRITICAL]".toList] =
        ("hello world".toList, false, none) := by
  refine ⟨?_, ?_, by decide, by decide⟩
  · intro i m hspec
    obtain ⟨hi, hfm, hnone⟩ := specScanAux_some keywords message i m hspec
    obtain ⟨K1, K2, hK, hstart, hK1⟩ :=
      firstMatchAt_some keywords (message.drop i) m hfm
    have hfind : pyFind message m = some i := by
      apply pyFind_eq_some_of message m i hstart
      intro j hj
      exact firstMatchAt_none keywords (message.drop j) (hnone j hj) m
        (by rw [hK]; exact List.mem_append_right _ (List.mem_cons_self _ _))
    have hmins : ∀ m' ∈ keywords, ∀ p, pyFind message m' = some p → i ≤ p := by
      intro m' hm' p hp
      by_contra hlt
      push_neg at hlt
      have hst := pyFind_starts message m' p hp
      have hfa := firstMatchAt_none keywords (message.drop p) (hnone p hlt) m' hm'
      rw [hst] at hfa
      exact Bool.noConfusion hfa
    have hK1lt : ∀ m' ∈ K1, ∀ p, pyFind message m' = some p → i < p := by
      intro m' hm' p hp
      have hle : i ≤ p :=
        hmins m' (by rw [hK]; exact List.mem_append_left _ hm') p hp
      rcases Nat.lt_or_ge i p with hcase | hcase
      · exact hcase
      · have hpi : p = i := Nat.le_antisymm hcase hle
        subst hpi
        have hst := pyFind_starts message m' p hp
        have hfalse := hK1 m' hm'
        rw [hst] at hfalse
        exact Bool.noConfusion hfalse
    have hK2le : ∀ m' ∈ K2, ∀ p, pyFind message m' = some p → i ≤ p := by
      intro m' hm' p hp
      exact hmins m'
        (by rw [hK]; exact List.mem_append_right _ (List.mem_cons_of_mem _ hm')) p hp
    have hscan : scanMarkers message keywords = (i, some m) := by
      unfold scanMarkers
      rw [hK]
      exact foldl_scanStep_win message K1 m K2 i message.length none hi hfind hK1lt hK2le
    refine ⟨hscan, ?_⟩
    have hmsg : message.isEmpty = false := by
      cases message with
      | nil => exact absurd hi (by simp)
      | cons _ _ => rfl
    have hkw : keywords.isEmpty = false := by
      rw [hK]; cases K1 <;> rfl
    simp [sanitizeMessage, hmsg, hkw, hscan]
  · intro hspec
    by_cases hg : (message.isEmpty || keywords.isEmpty) = true
    · simp [sanitizeMessage, hg]
    · have hnone := specScanAux_none keywords message hspec
      have hid : scanMarkers message keywords = (message.length, none) := by
        unfold scanMarkers
        apply foldl_scanStep_id
        intro m hm p hp
        by_contra hno
        push_neg at hno
        have hst := pyFind_starts message m p hp
        have hfa := firstMatchAt_none keywords (message.drop p) (hnone p hno) m hm
        rw [hst] at hfa
        exact Bool.noConfusion hfa
      simp [sanitizeMessage, hg, hid]

/-- Witness for C5: the earliest-match branch evaluated at the concrete
spec example, where the first marker occurs at offset 6. -/
theorem C5_sanitize_earliest_witness :
    specScan "hello [INTERNAL] secret".toList
        ["[INTERNAL]".toList, "[CRITICAL]".toList] =
      some (6, "[INTERNAL]".toList) ∧
    sanitizeMessage "hello [INTERNAL] secret".toList
        ["[INTERNAL]".toList, "[CRITICAL]".toList] =
      (pyStrip ("hello [INTERNAL] secret".toList.take 6), true,
        some (pyStrip ("hello [INTERNAL] secret".toList.drop 6))) :=
  ⟨by decide,
    ((C5_sanitize_earliest _ _).1 6 "[INTERNAL]".toList (by decide)).2⟩

/-! ## Hand-off tool (source: make_handoff_tool)

The tool body returns
  Command(goto=agent_name, graph=PARENT,
          update={"messages": state["messages"][:-1],
                  "active_agent": agent_name,
                  "active_agent_prompt": cfg.system_prompt if cfg else ""})
where `cfg = next((a for a in config.agents if a.name == agent_name), None)`.
The update dict contains exactly the three keys mirrored by
`HandoffUpdate`; transcript entries are embedded as opaque strings. -/

structure AgentConfigM where
  name : String
  system_prompt : String
deriving DecidableEq

structure HandoffUpdate where
  messages : List String
  active_agent : String
  active_agent_prompt : String
deriving DecidableEq

structure HandoffCommand where
  goto : String
  update : HandoffUpdate
deriving DecidableEq

def makeHandoffCommand (agentName : String) (agents : List AgentConfigM)
    (stateMessages : List String) : HandoffCommand :=
  let agentConfig := agents.find? (fun a => a.name == agentName)
  { goto := agentName
    update :=
      { messages := stateMessages.dropLast
        active_agent := agentName
        active_agent_prompt :=
          match agentConfig with
          | some c => c.system_prompt
          | none => "" } }

/-- Claim C10: the hand-off command for target `T` sets `active_agent`
to `T`, sets `active_agent_prompt` to the system prompt of the first
configured agent named `T` (or the empty string if none is configured),
and replaces the `messages` entry of the update with the current
transcript minus its most recent entry; the update dict carries exactly
those three keys (mirrored by the `HandoffUpdate` record), so no other
state field is touched by the hand-off update itself. -/
theorem C10_handoff_update (agentName : String) (agents : List AgentConfigM)
    (msgs : List String) :
    (∀ initial last, msgs = initial ++ [last] →
        (makeHandoffCommand agentName agents msgs).update.messages = initial)
    ∧ (msgs = [] → (makeHandoffCommand agentName agents msgs).update.messages = [])
    ∧ (makeHandoffCommand agentName agents msgs).update.active_agent = agentName
    ∧ (∀ c, agents.find? (fun a => a.name == agentName) = some c →
        (makeHandoffCommand agentName agents msgs).update.active_agent_prompt =
          c.system_prompt)
    ∧ ((∀ c ∈ agents, c.name ≠ agentName) →
        (makeHandoffCommand agentName agents msgs).update.active_agent_prompt = "")
    ∧ (makeHandoffCommand agentName agents msgs).goto = agentName := by
  refine ⟨?_, ?_, rfl, ?_, ?_, rfl⟩
  · intro initial last hm
    simp [makeHandoffCommand, hm]
  · intro hm
    simp [makeHandoffCommand, hm]
  · intro c hc
    simp [makeHandoffCommand, hc]
  · intro hnone
    have hfind : agents.find? (fun a => a.name == agentName) = none := by
      apply List.find?_eq_none.mpr
      intro c hc
      simpa using hnone c hc
    simp [makeHandoffCommand, hfind]

/-- Witness for C10: hand-off to a configured agent `b` drops the last
transcript entry and installs the configured prompt of `b`. -/
theorem C10_handoff_update_witness :
    (["hi", "please transfer"] = ["hi"] ++ ["please transfer"]) ∧
    ([AgentConfigM.mk "a" "pa", AgentConfigM.mk "b" "pb"].find?
        (fun a => a.name == "b") = some (AgentConfigM.mk "b" "pb")) ∧
    (makeHandoffCommand "b" [AgentConfigM.mk "a" "pa", AgentConfigM.mk "b" "pb"]
        ["hi", "please transfer"]).update.messages = ["hi"] ∧
    (makeHandoffCommand "b" [AgentConfigM.mk "a" "pa", AgentConfigM.mk "b" "pb"]
        ["hi", "please transfer"]).update.active_agent_prompt = "pb" :=
  ⟨by decide, by decide,
    (C10_handoff_update "b" [AgentConfigM.mk "a" "pa", AgentConfigM.mk "b" "pb"]
        ["hi", "please transfer"]).1 ["hi"] "please transfer" (by decide),
    ((C10_handoff_update "b" [AgentConfigM.mk "a" "pa", AgentConfigM.mk "b" "pb"]
        ["hi", "please transfer"]).2.2.2.1 (AgentConfigM.mk "b" "pb") (by decide))⟩

/-! ## TTFT metrics queue (source: LangGraphAgent._emit_ttft)

The source pushes onto `asyncio.Queue(maxsize=cap)` with `put_nowait`;
on `QueueFull` it increments the overflow counter, removes the oldest
entry with `get_nowait` and pushes the new event (the inner
`QueueEmpty` fallback of the source is unreachable for positive
capacity but is modelled nonetheless).  `asyncio` queues with
`maxsize = 0` are unbounded, hence the `maxsize = 0` disjunct.  The
function never blocks by construction (it is total) and never raises:
both exception paths of the source are internal.  Event payloads are
irrelevant to the queue discipline and are embedded as strings. -/

def emitTtft (maxsize : Nat) (st : List String × Nat) (e : String) :
    List String × Nat :=
  match st with
  | (q, ov) =>
    if maxsize = 0 ∨ q.length < maxsize then (q ++ [e], ov)
    else
      match q with
      | [] => ([e], ov + 1)
      | _ :: t => (t ++ [e], ov + 1)

theorem emitTtft_fill (maxsize : Nat) :
    ∀ (evs : List String) (q : List String) (ov : Nat),
    (maxsize = 0 ∨ q.length + evs.length ≤ maxsize) →
    evs.foldl (emitTtft maxsize) (q, ov) = (q ++ evs, ov) := by
  intro evs
  induction evs with
  | nil => intro q ov _; simp
  | cons e rest ih =>
    intro q ov h
    have hstep : emitTtft maxsize (q, ov) e = (q ++ [e], ov) := by
      rcases h with h | h
      · simp [emitTtft, h]
      · have : q.length < maxsize := by
          simp only [List.length_cons] at h
          omega
        simp [emitTtft, this]
    rw [List.foldl_cons, hstep, ih (q ++ [e]) ov]
    · simp
    · rcases h with h | h
      · exact Or.inl h
      · right
        simp only [List.length_append, List.length_cons, List.length_nil] at h ⊢
        omega

/-- Claim C9: a push onto the bounded TTFT queue never blocks (the step
function is total), never discards the newest event (the pushed event
is always in the resulting queue), evicts exactly the oldest entry and
increments the overflow counter by exactly one on an overflowing push,
and leaves the counter unchanged otherwise; consequently pushing
`capacity + 1` events into an empty queue retains the newest `capacity`
events in order and ends with an overflow count of exactly 1. -/
theorem C9_ttft_overflow :
    (∀ (cap : Nat) (q : List String) (ov : Nat) (e : String),
        e ∈ (emitTtft cap (q, ov) e).1)
    ∧ (∀ (cap : Nat) (q : List String) (ov : Nat) (e : String),
        ¬ (cap = 0 ∨ q.length < cap) →
        emitTtft cap (q, ov) e = (q.tail ++ [e], ov + 1))
    ∧ (∀ (cap : Nat) (q : List String) (ov : Nat) (e : String),
        (cap = 0 ∨ q.length < cap) →
        emitTtft cap (q, ov) e = (q ++ [e], ov))
    ∧ (∀ (cap : Nat), 0 < cap → ∀ (ys : List String) (y : String),
        ys.length = cap →
        (ys ++ [y]).foldl (emitTtft cap) ([], 0) = ((ys ++ [y]).drop 1, 1)) := by
  refine ⟨?_, ?_, ?_, ?_⟩
  · intro cap q ov e
    show e ∈ (if cap = 0 ∨ q.length < cap then (q ++ [e], ov)
        else match q with
        | [] => ([e], ov + 1)
        | _ :: t => (t ++ [e], ov + 1)).1
    by_cases h : cap = 0 ∨ q.length < cap
    · rw [if_pos h]; simp
    · rw [if_neg h]; cases q <;> simp
  · intro cap q ov e h
    cases q with
    | nil =>
      exfalso
      apply h
      rcases Nat.eq_zero_or_pos cap with h0 | h0
      · exact Or.inl h0
      · exact Or.inr (by simpa using h0)
    | cons x t =>
      simp only [emitTtft]
      rw [if_neg h]
      rfl
  · intro cap q ov e h
    simp only [emitTtft]
    rw [if_pos h]
  · intro cap hcap ys y hlen
    rw [List.foldl_append, emitTtft_fill cap ys [] 0 (Or.inr (by simp [hlen]))]
    cases ys with
    | nil =>
      simp only [List.length_nil] at hlen
      omega
    | cons x t =>
      simp only [List.foldl_cons, List.foldl_nil, List.nil_append]
      have hne : ¬ (cap = 0 ∨ (x :: t).length < cap) := by
        rw [← hlen]
        intro hcon
        rcases hcon with h0 | h0
        · simp only [List.length_cons] at h0
          omega
        · omega
      simp only [emitTtft]
      rw [if_neg hne]
      rfl

/-- Witness for C9: with capacity 2, pushing three events keeps the two
newest and counts one overflow. -/
theorem C9_ttft_overflow_witness :
    (0 < 2) ∧ (["a", "b"].length = 2) ∧
      ((["a", "b"] ++ ["c"]).foldl (emitTtft 2) ([], 0) =
        ((["a", "b"] ++ ["c"]).drop 1, 1)) :=
  ⟨by decide, by decide,
    C9_ttft_overflow.2.2.2 2 (by decide) ["a", "b"] "c" (by decide)⟩

/-! ## Emitted-event dedup set (source: _parse_and_yield_chunks, _cleanup_sent_events)

The dict `sent_events` only ever maps ids to `True`, so it is an
insertion-ordered set of ids, embedded as a `List String`.  The source
checks `msg.id in sent_events` and returns without yielding anything on
a hit; otherwise it calls `_cleanup_sent_events` (which drops the first
`MAX_SENT_EVENTS // 2` keys when the size exceeds `MAX_SENT_EVENTS`),
yields the message events, and finally records `msg.id` when it is a
truthy (non-empty, non-None) id.  The concrete events yielded by
`_handle_ai_message` / `_handle_tool_message` are irrelevant to the
dedup discipline and are passed in as an opaque list. -/

def maxSentEvents : Nat := 1000

def cleanupSentEvents (sent : List String) : List String :=
  if sent.length > maxSentEvents then sent.drop (maxSentEvents / 2) else sent

def parseAndYieldChunks (msgId : Option String) (emit : List String)
    (sent : List String) : List String × List String :=
  match msgId with
  | some i =>
      if i ∈ sent then ([], sent)
      else
        let s1 := cleanupSentEvents sent
        (emit, if i.isEmpty then s1 else s1 ++ [i])
  | none => (emit, cleanupSentEvents sent)

/-- Claim C7: a message whose id is already recorded in `sent_events`
produces no output events and leaves the set unchanged; processing the
same id twice never surfaces it twice (the second pass emits nothing);
and the set is capped: when its size exceeds `MAX_SENT_EVENTS = 1000`,
the oldest `1000 / 2 = 500` recorded ids (in insertion order) are
evicted before the new id is appended. -/
theorem C7_dedup_and_cap :
    (∀ (i : String) (emit sent : List String), i ∈ sent →
        parseAndYieldChunks (some i) emit sent = ([], sent))
    ∧ (∀ (i : String) (e1 e2 sent : List String), ¬ i.isEmpty →
        (parseAndYieldChunks (some i) e2
          (parseAndYieldChunks (some i) e1 sent).2).1 = [])
    ∧ (∀ (i : String) (emit sent : List String),
        i ∉ sent → ¬ i.isEmpty → sent.length > maxSentEvents →
        parseAndYieldChunks (some i) emit sent =
          (emit, sent.drop (maxSentEvents / 2) ++ [i])) := by
  refine ⟨?_, ?_, ?_⟩
  · intro i emit sent hmem
    simp [parseAndYieldChunks, hmem]
  · intro i e1 e2 sent hne
    by_cases hmem : i ∈ sent
    · simp [parseAndYieldChunks, hmem]
    · have hrec : (parseAndYieldChunks (some i) e1 sent).2 =
          cleanupSentEvents sent ++ [i] := by
        simp [parseAndYieldChunks, hmem, hne]
      rw [hrec]
      have hmem2 : i ∈ cleanupSentEvents sent ++ [i] :=
        List.mem_append_right _ (List.mem_singleton.mpr rfl)
      simp [parseAndYieldChunks, hmem2]
  · intro i emit sent hmem hne hlen
    have hclean : cleanupSentEvents sent = sent.drop (maxSentEvents / 2) := by
      simp [cleanupSentEvents, hlen]
    simp [parseAndYieldChunks, hmem, hne, hclean]

/-- Witness for C7: with 1001 recorded ids, a fresh id evicts the
oldest 500 entries and is then recorded. -/
theorem C7_dedup_and_cap_witness :
    ("y" ∉ List.replicate 1001 "x") ∧ ¬ ("y" : String).isEmpty ∧
      (List.replicate 1001 "x").length > maxSentEvents ∧
      parseAndYieldChunks (some "y") ["ev"] (List.replicate 1001 "x") =
        (["ev"], (List.replicate 1001 "x").drop (maxSentEvents / 2) ++ ["y"]) := by
  have h1 : ("y" : String) ∉ List.replicate 1001 "x" := by
    intro h
    have := List.eq_of_mem_replicate h
    exact absurd this (by decide)
  have h2 : ¬ ("y" : String).isEmpty := by decide
  have h3 : (List.replicate (1001 : Nat) "x").length > maxSentEvents := by
    rw [List.length_replicate]
    norm_num [maxSentEvents]
  exact ⟨h1, h2, h3, C7_dedup_and_cap.2.2 "y" ["ev"] _ h1 h2 h3⟩

/-! ## Arbitrated routing (source: orchestrator_node, decision_node,
_create_agent_switch_command)

`orchestrator_node` validates the arbiter model output against the
configured agent names: with no agents it returns the sentinel
`not_provided`; an invalid suggestion is replaced by
`state.get("active_agent", agent_names[0])`; otherwise the suggestion
passes through.  `decision_node` keeps the current agent (a command to
the analyzer node with no state update) when the suggestion is falsy,
the sentinel, equal to the current agent, or names an agent with no
configuration entry; only a valid differing suggestion yields a switch
command updating `active_agent` and `active_agent_prompt`. -/

def noAgentProvided : String := "not_provided"

def orchestratorNode (suggestedRaw : String) (agentNames : List String)
    (stateActive : Option String) : String :=
  if agentNames.isEmpty then noAgentProvided
  else if suggestedRaw ∈ agentNames then suggestedRaw
  else stateActive.getD (agentNames.headD "")

inductive DecisionResult
  | keep
  | switch (active_agent : String) (active_agent_prompt : String)
deriving DecidableEq

def createAgentSwitchCommand (newActiveAgent : String)
    (agents : List AgentConfigM) : DecisionResult :=
  match agents.find? (fun a => a.name == newActiveAgent) with
  | none => .keep
  | some c => .switch newActiveAgent c.system_prompt

def decisionNode (suggestion : Option String) (currentActive : String)
    (agents : List AgentConfigM) : DecisionResult :=
  match suggestion with
  | none => .keep
  | some s =>
      if s = "" ∨ s = noAgentProvided then .keep
      else if s ≠ currentActive then createAgentSwitchCommand s agents
      else .keep

/-- Claim C6: in arbitrated routing, whenever the arbiter suggestion is
absent (no `orchestrator_suggested_agent` in state, empty, or the
sentinel) or is not among the configured agent names, the decision node
keeps the current agent: it emits no state update, so `active_agent`
and `active_agent_prompt` are unchanged for the rest of the turn. -/
theorem C6_invalid_suggestion_keeps_agent (agents : List AgentConfigM)
    (currentActive : String) (suggestedRaw : String) :
    (suggestedRaw ∉ agents.map AgentConfigM.name →
        decisionNode
          (some (orchestratorNode suggestedRaw (agents.map AgentConfigM.name)
            (some currentActive)))
          currentActive agents = .keep)
    ∧ decisionNode none currentActive agents = .keep
    ∧ decisionNode (some noAgentProvided) currentActive agents = .keep
    ∧ decisionNode (some "") currentActive agents = .keep := by
  refine ⟨?_, rfl, by simp [decisionNode], by simp [decisionNode]⟩
  intro hnot
  by_cases hempty : (agents.map AgentConfigM.name).isEmpty
  · simp [orchestratorNode, hempty, decisionNode]
  · have hsugg : orchestratorNode suggestedRaw (agents.map AgentConfigM.name)
        (some currentActive) = currentActive := by
      simp [orchestratorNode, hempty, hnot]
    rw [hsugg]
    simp [decisionNode]

/-- Witness for C6: the suggestion `ghost` is not a configured agent,
so the decision keeps the current agent `a`. -/
theorem C6_invalid_suggestion_keeps_agent_witness :
    ("ghost" ∉ [AgentConfigM.mk "a" "pa", AgentConfigM.mk "b" "pb"].map
        AgentConfigM.name) ∧
      decisionNode
        (some (orchestratorNode "ghost"
          ([AgentConfigM.mk "a" "pa", AgentConfigM.mk "b" "pb"].map AgentConfigM.name)
          (some "a")))
        "a" [AgentConfigM.mk "a" "pa", AgentConfigM.mk "b" "pb"] = .keep :=
  ⟨by decide,
    (C6_invalid_suggestion_keeps_agent [AgentConfigM.mk "a" "pa",
      AgentConfigM.mk "b" "pb"] "a" "ghost").1 (by decide)⟩

/-! ## Orchestrator initialisation (source: AgentOrchestrator.initialize,
_setup_dependencies, _build_graph)

The awaited external effects are embedded as a `DepEnv` record saying
which collaborator call raises.  Control flow of the source:
`initialize` returns False when `self.config` is falsy, True without
rebuilding when `self.graph` is already set, and otherwise runs
`_setup_dependencies` (connection pool acquisition and
`AnalyzerClient.connect` can raise; a `checkpointer.setup()` failure is
caught internally and only logged) then `_build_graph` (which returns
without setting the graph when no agents are configured, and whose
`compile` can raise); every raise is caught by the surrounding
`try/except`, which returns False, so nothing escapes the boundary —
in this embedding that is witnessed by `initializeOrchestrator` being a
total function into `Bool × OrchState` with no error component. -/

structure OrchState where
  hasConfig : Bool
  agents : List AgentConfigM
  graph : Option Unit
deriving DecidableEq

structure DepEnv where
  poolRaises : Bool
  checkpointerSetupRaises : Bool
  analyzerConnectRaises : Bool
  compileRaises : Bool
deriving DecidableEq

def setupDependencies (env : DepEnv) : Except String Unit :=
  if env.poolRaises then .error "connection pool unavailable"
  else if env.analyzerConnectRaises then .error "analyzer connect failed"
  else .ok ()

def buildGraph (o : OrchState) (env : DepEnv) : Except String (Option Unit) :=
  if o.agents.isEmpty then .ok o.graph
  else if env.compileRaises then .error "graph compile failed"
  else .ok (some ())

def initializeOrchestrator (o : OrchState) (env : DepEnv) : Bool × OrchState :=
  if !o.hasConfig then (false, o)
  else if o.graph.isSome then (true, o)
  else
    match setupDependencies env with
    | .error _ => (false, o)
    | .ok _ =>
        match buildGraph o env with
        | .error _ => (false, o)
        | .ok g => if g.isSome then (true, { o with graph := g }) else (false, o)

/-- Claim C4: `initialize` is idempotent — with the graph already built
it returns success and leaves the orchestrator unchanged, performing no
rebuild — and fails closed: it returns failure when no agents are
configured, and failure when the checkpointer connection pool or the
analyzer client fails to connect; exceptions never escape (the
embedding is a total function, with every raising path mapped to a
`false` result).  A benign `checkpointer.setup()` failure is only
logged, so a run with no other failures still succeeds. -/
theorem C4_initialize_idempotent_fail_closed (o : OrchState) (env : DepEnv) :
    (o.hasConfig = true → o.graph.isSome = true →
        initializeOrchestrator o env = (true, o))
    ∧ (o.hasConfig = true → o.graph = none → o.agents = [] →
        (initializeOrchestrator o env).1 = false)
    ∧ (o.hasConfig = true → o.graph = none →
        (env.poolRaises = true ∨ env.analyzerConnectRaises = true) →
        (initializeOrchestrator o env).1 = false)
    ∧ (o.hasConfig = false → (initializeOrchestrator o env).1 = false)
    ∧ (o.hasConfig = true → o.graph = none → o.agents ≠ [] →
        env.poolRaises = false → env.analyzerConnectRaises = false →
        env.compileRaises = false →
        initializeOrchestrator o env = (true, { o with graph := some () })) := by
  refine ⟨?_, ?_, ?_, ?_, ?_⟩
  · intro hc hg
    simp [initializeOrchestrator, hc, hg]
  · intro hc hg ha
    simp [initializeOrchestrator, hc, hg, buildGraph, ha]
    cases hsetup : setupDependencies env <;> simp
  · intro hc hg hdep
    rcases hdep with hd | hd
    · simp [initializeOrchestrator, hc, hg, setupDependencies, hd]
    · cases hp : env.poolRaises <;>
        simp [initializeOrchestrator, hc, hg, setupDependencies, hd, hp]
  · intro hc
    simp [initializeOrchestrator, hc]
  · intro hc hg ha hp hac hcm
    have hae : o.agents.isEmpty = false := by
      cases hA : o.agents with
      | nil => exact absurd hA ha
      | cons x t => rfl
    simp [initializeOrchestrator, hc, hg, setupDependencies, hp, hac,
      buildGraph, hae, hcm]

/-- Witness for C4: a fully healthy environment builds the graph once;
rerunning on the already-built state is a no-op success. -/
theorem C4_initialize_idempotent_fail_closed_witness :
    ((OrchState.mk true [AgentConfigM.mk "a" "pa"] (some ())).hasConfig = true) ∧
    ((OrchState.mk true [AgentConfigM.mk "a" "pa"] (some ())).graph.isSome = true) ∧
    initializeOrchestrator (OrchState.mk true [AgentConfigM.mk "a" "pa"] (some ()))
        (DepEnv.mk false false false false) =
      (true, OrchState.mk true [AgentConfigM.mk "a" "pa"] (some ())) :=
  ⟨rfl, rfl,
    (C4_initialize_idempotent_fail_closed
        (OrchState.mk true [AgentConfigM.mk "a" "pa"] (some ()))
        (DepEnv.mk false false false false)).1 rfl rfl⟩

/-! ## Guaranteed sentinel close (source: ConversationManager._process_single_message,
_read_responses)

`_process_single_message` runs the turn generator under
`asyncio.timeout(timeout)`, forwarding every produced event to the
private response queue; a `TimeoutError` appends one
`processing_timeout` error event, any other exception appends one
`processing_error` error event, and the `finally` block always appends
the sentinel `None`.  A queue item is therefore `Option RespEvent`
with `none` as the sentinel.  `TurnOutcome` abstracts what the
orchestrator generator did: completed after its events, timed out after
emitting a prefix, or raised after emitting a prefix.
`_read_responses` drains the queue until the first sentinel. -/

inductive RespEvent
  | message (content : String) (id : String)
  | debug (event : String)
  | error (event : String) (data : String)
deriving DecidableEq

inductive TurnOutcome
  | success (evs : List RespEvent)
  | timedOut (evs : List RespEvent)
  | raised (evs : List RespEvent) (msg : String)

def processSingleMessage (o : TurnOutcome) : List (Option RespEvent) :=
  (match o with
   | .success evs => evs.map some
   | .timedOut evs =>
       evs.map some ++ [some (RespEvent.error "processing_timeout" "Processing timed out")]
   | .raised evs msg => evs.map some ++ [some (RespEvent.error "processing_error" msg)])
  ++ [none]

def readResponses : List (Option RespEvent) → List RespEvent
  | [] => []
  | none :: _ => []
  | some r :: t => r :: readResponses t

theorem readResponses_map_some (l : List RespEvent) :
    readResponses (l.map some ++ [none]) = l := by
  induction l with
  | nil => rfl
  | cons r t ih => simp [readResponses, ih]

theorem count_none_map_some (l : List RespEvent) :
    (l.map some).count (none : Option RespEvent) = 0 := by
  rw [List.count_eq_zero]
  intro h
  obtain ⟨r, _, hr⟩ := List.mem_map.mp h
  exact Option.noConfusion hr

/-- Claim C2: for every processed message, the response queue contents
end with the sentinel `none`, contain exactly one sentinel, and consist
of event items only before it; on success the events are exactly the
turn events, on timeout or exception they are the emitted prefix
followed by a single terminal error event; hence the drain loop
`_read_responses` consumes exactly the items before the sentinel and
terminates, and no request is silently dropped. -/
theorem C2_sentinel_close (o : TurnOutcome) :
    ((processSingleMessage o).getLast? = some none)
    ∧ ((processSingleMessage o).count none = 1)
    ∧ (processSingleMessage o =
        (readResponses (processSingleMessage o)).map some ++ [none])
    ∧ (∀ evs, o = .success evs → readResponses (processSingleMessage o) = evs)
    ∧ (∀ evs, o = .timedOut evs → readResponses (processSingleMessage o) =
        evs ++ [RespEvent.error "processing_timeout" "Processing timed out"])
    ∧ (∀ evs msg, o = .raised evs msg → readResponses (processSingleMessage o) =
        evs ++ [RespEvent.error "processing_error" msg]) := by
  have hshape : ∃ evs : List RespEvent,
      processSingleMessage o = evs.map some ++ [none] ∧
      readResponses (processSingleMessage o) = evs := by
    cases o with
    | success evs =>
        exact ⟨evs, rfl, by rw [show processSingleMessage (.success evs) =
          evs.map some ++ [none] from rfl, readResponses_map_some]⟩
    | timedOut evs =>
        refine ⟨evs ++ [RespEvent.error "processing_timeout" "Processing timed out"], ?_, ?_⟩
        · simp [processSingleMessage]
        · rw [show processSingleMessage (.timedOut evs) =
            (evs ++ [RespEvent.error "processing_timeout" "Processing timed out"]).map some
              ++ [none] from by simp [processSingleMessage]]
          exact readResponses_map_some _
    | raised evs msg =>
        refine ⟨evs ++ [RespEvent.error "processing_error" msg], ?_, ?_⟩
        · simp [processSingleMessage]
        · rw [show processSingleMessage (.raised evs msg) =
            (evs ++ [RespEvent.error "processing_error" msg]).map some ++ [none] from by
              simp [processSingleMessage]]
          exact readResponses_map_some _
  obtain ⟨evs, hform, hread⟩ := hshape
  refine ⟨?_, ?_, ?_, ?_, ?_, ?_⟩
  · rw [hform]
    exact List.getLast?_concat _
  · rw [hform, List.count_append, count_none_map_some]
    rfl
  · rw [hform, readResponses_map_some]
  · intro evs0 ho
    subst ho
    simpa [processSingleMessage] using readResponses_map_some evs0
  · intro evs0 ho
    subst ho
    rw [show processSingleMessage (.timedOut evs0) =
      (evs0 ++ [RespEvent.error "processing_timeout" "Processing timed out"]).map some
        ++ [none] from by simp [processSingleMessage]]
    exact readResponses_map_some _
  · intro evs0 msg ho
    subst ho
    rw [show processSingleMessage (.raised evs0 msg) =
      (evs0 ++ [RespEvent.error "processing_error" msg]).map some ++ [none] from by
        simp [processSingleMessage]]
    exact readResponses_map_some _

/-- Witness for C2: a timed-out turn that had already emitted one chunk
yields that chunk, then the terminal error event, then the sentinel. -/
theorem C2_sentinel_close_witness :
    (TurnOutcome.timedOut [RespEvent.message "partial" "id1"] =
        TurnOutcome.timedOut [RespEvent.message "partial" "id1"]) ∧
    readResponses
        (processSingleMessage (TurnOutcome.timedOut [RespEvent.message "partial" "id1"])) =
      [RespEvent.message "partial" "id1"] ++
        [RespEvent.error "processing_timeout" "Processing timed out"] :=
  ⟨rfl,
    (C2_sentinel_close (TurnOutcome.timedOut [RespEvent.message "partial" "id1"])).2.2.2.2.1
      [RespEvent.message "partial" "id1"] rfl⟩

/-! ## Per-conversation single-flight consumer (source:
ConversationManager.register_conversation, _enqueue_message, _process_queue)

`register_conversation` creates, per conversation id, one bounded
`asyncio.Queue(maxsize=MAX_QUEUE_SIZE)` and exactly one consumer task
running `_process_queue` (re-registration of an existing id is a no-op,
so a second consumer for the same id is never spawned).  The consumer
loop dequeues one item at a time and runs the whole turn to completion
before looking at the queue again.  This is embedded as a labelled
transition system over one conversation: producers may `enqueue` (the
`put` in `_enqueue_message`, subject to the capacity bound), the single
consumer may `dequeue` the head of the queue when idle (beginning a
turn, observing the current session state) and may `finish` the running
turn (committing `turnFn sess m`).  There is no transition that begins
a turn while another is running, precisely because the model — like the
code — has a single consumer.  Every step is recorded in a trace, and
the claim is proved over all reachable states. -/

def maxQueueSize : Nat := 100

inductive TurnEv (S : Type)
  | enq (m : String)
  | start (m : String) (s : S)
  | finish (m : String) (s : S)

inductive ConsumerPhase
  | idle
  | running (m : String)
deriving DecidableEq

structure ConvSys (S : Type) where
  queue : List String
  consumer : ConsumerPhase
  sess : S
  trace : List (TurnEv S)

/-- Messages enqueued so far, in submission order. -/
def enqMsgs {S : Type} : List (TurnEv S) → List String :=
  List.filterMap fun e => match e with | .enq m => some m | _ => none

/-- Messages whose turn has begun, in processing order. -/
def begunMsgs {S : Type} : List (TurnEv S) → List String :=
  List.filterMap fun e => match e with | .start m _ => some m | _ => none

/-- Messages whose turn has finished, in completion order. -/
def endedMsgs {S : Type} : List (TurnEv S) → List String :=
  List.filterMap fun e => match e with | .finish m _ => some m | _ => none

def curMsgs : ConsumerPhase → List String
  | .idle => []
  | .running m => [m]

inductive ConvStep {S : Type} (turnFn : S → String → S) :
    ConvSys S → ConvSys S → Prop
  | enqueue (sys : ConvSys S) (m : String)
      (h : sys.queue.length < maxQueueSize) :
      ConvStep turnFn sys
        { sys with queue := sys.queue ++ [m], trace := sys.trace ++ [.enq m] }
  | dequeue (sys : ConvSys S) (m : String) (rest : List String)
      (hq : sys.queue = m :: rest) (hc : sys.consumer = .idle) :
      ConvStep turnFn sys
        { sys with queue := rest, consumer := .running m,
                   trace := sys.trace ++ [.start m sys.sess] }
  | finish (sys : ConvSys S) (m : String) (hc : sys.consumer = .running m) :
      ConvStep turnFn sys
        { sys with consumer := .idle, sess := turnFn sys.sess m,
                   trace := sys.trace ++ [.finish m (turnFn sys.sess m)] }

def convInit {S : Type} (s0 : S) : ConvSys S := ⟨[], .idle, s0, []⟩

inductive ConvReachable {S : Type} (turnFn : S → String → S) (s0 : S) :
    ConvSys S → Prop
  | init : ConvReachable turnFn s0 (convInit s0)
  | step {a b : ConvSys S} : ConvReachable turnFn s0 a → ConvStep turnFn a b →
      ConvReachable turnFn s0 b

theorem enqMsgs_append {S : Type} (l1 l2 : List (TurnEv S)) :
    enqMsgs (l1 ++ l2) = enqMsgs l1 ++ enqMsgs l2 :=
  List.filterMap_append _ _ _

theorem begunMsgs_append {S : Type} (l1 l2 : List (TurnEv S)) :
    begunMsgs (l1 ++ l2) = begunMsgs l1 ++ begunMsgs l2 :=
  List.filterMap_append _ _ _

theorem endedMsgs_append {S : Type} (l1 l2 : List (TurnEv S)) :
    endedMsgs (l1 ++ l2) = endedMsgs l1 ++ endedMsgs l2 :=
  List.filterMap_append _ _ _

theorem enqMsgs_single_enq {S : Type} (m : String) :
    enqMsgs [TurnEv.enq (S := S) m] = [m] := rfl

theorem enqMsgs_single_start {S : Type} (m : String) (s : S) :
    enqMsgs [TurnEv.start m s] = [] := rfl

theorem enqMsgs_single_finish {S : Type} (m : String) (s : S) :
    enqMsgs [TurnEv.finish m s] = [] := rfl

theorem begunMsgs_single_enq {S : Type} (m : String) :
    begunMsgs [TurnEv.enq (S := S) m] = [] := rfl

theorem begunMsgs_single_start {S : Type} (m : String) (s : S) :
    begunMsgs [TurnEv.start m s] = [m] := rfl

theorem begunMsgs_single_finish {S : Type} (m : String) (s : S) :
    begunMsgs [TurnEv.finish m s] = [] := rfl

theorem endedMsgs_single_enq {S : Type} (m : String) :
    endedMsgs [TurnEv.enq (S := S) m] = [] := rfl

theorem endedMsgs_single_start {S : Type} (m : String) (s : S) :
    endedMsgs [TurnEv.start m s] = [] := rfl

theorem endedMsgs_single_finish {S : Type} (m : String) (s : S) :
    endedMsgs [TurnEv.finish m s] = [m] := rfl

theorem curMsgs_idle : curMsgs .idle = [] := rfl

theorem curMsgs_running (m : String) : curMsgs (.running m) = [m] := rfl

/-- Invariant carried through every reachable state of the consumer
system: the begun turns are the ended turns plus the turn currently
running (well-bracketing and mutual exclusion), the begun turns
followed by the pending queue are exactly the enqueued messages in
submission order (FIFO), the committed session state is the fold of the
finished turns over the initial state, and every `start` event in the
trace recorded the fold of the turns finished before it, at a moment
when no turn was in flight. -/
structure ConvInv {S : Type} (turnFn : S → String → S) (s0 : S)
    (sys : ConvSys S) : Prop where
  begun_eq : begunMsgs sys.trace = endedMsgs sys.trace ++ curMsgs sys.consumer
  fifo : begunMsgs sys.trace ++ sys.queue = enqMsgs sys.trace
  sess_eq : sys.sess = (endedMsgs sys.trace).foldl turnFn s0
  starts_ok : ∀ t1 m s t2, sys.trace = t1 ++ TurnEv.start m s :: t2 →
      s = (endedMsgs t1).foldl turnFn s0 ∧ begunMsgs t1 = endedMsgs t1

theorem append_singleton_eq_cases {α : Type} (l : List α) (a : α) (t1 : List α)
    (b : α) (t2 : List α) (h : l ++ [a] = t1 ++ b :: t2) :
    (t1 = l ∧ b = a ∧ t2 = []) ∨ ∃ t2', t2 = t2' ++ [a] ∧ l = t1 ++ b :: t2' := by
  rcases List.eq_nil_or_concat t2 with rfl | ⟨t2', c, rfl⟩
  · obtain ⟨h1, h2⟩ := List.append_inj' h rfl
    injection h2 with h2 _
    exact Or.inl ⟨h1.symm, h2.symm, rfl⟩
  · simp only [List.concat_eq_append] at h ⊢
    have h' : l ++ [a] = (t1 ++ b :: t2') ++ [c] := by
      rw [h, List.append_assoc, List.cons_append]
    obtain ⟨h1, h2⟩ := List.append_inj' h' rfl
    injection h2 with h2 _
    subst h2
    exact Or.inr ⟨t2', rfl, h1⟩

theorem convInv_step {S : Type} {turnFn : S → String → S} {s0 : S}
    {a b : ConvSys S} (inv : ConvInv turnFn s0 a) (st : ConvStep turnFn a b) :
    ConvInv turnFn s0 b := by
  obtain ⟨hbe, hfifo, hsess, hstarts⟩ := inv
  cases st with
  | enqueue m h =>
    refine ⟨?_, ?_, ?_, ?_⟩
    · show begunMsgs (a.trace ++ [TurnEv.enq m]) =
        endedMsgs (a.trace ++ [TurnEv.enq m]) ++ curMsgs a.consumer
      simp only [begunMsgs_append, endedMsgs_append, begunMsgs_single_enq,
        endedMsgs_single_enq, List.append_nil]
      exact hbe
    · show begunMsgs (a.trace ++ [TurnEv.enq m]) ++ (a.queue ++ [m]) =
        enqMsgs (a.trace ++ [TurnEv.enq m])
      simp only [begunMsgs_append, enqMsgs_append, begunMsgs_single_enq,
        enqMsgs_single_enq, List.append_nil]
      rw [← List.append_assoc, hfifo]
    · show a.sess = (endedMsgs (a.trace ++ [TurnEv.enq m])).foldl turnFn s0
      simp only [endedMsgs_append, endedMsgs_single_enq, List.append_nil]
      exact hsess
    · intro t1 m' s' t2 heq
      simp only at heq
      rcases append_singleton_eq_cases _ _ _ _ _ heq with ⟨_, hbad, _⟩ | ⟨t2', _, hin⟩
      · exact absurd hbad (by intro hcon; cases hcon)
      · exact hstarts t1 m' s' t2' hin
  | dequeue m rest hq hc =>
    refine ⟨?_, ?_, ?_, ?_⟩
    · show begunMsgs (a.trace ++ [TurnEv.start m a.sess]) =
        endedMsgs (a.trace ++ [TurnEv.start m a.sess]) ++ curMsgs (.running m)
      simp only [begunMsgs_append, endedMsgs_append, begunMsgs_single_start,
        endedMsgs_single_start, List.append_nil, curMsgs_running]
      rw [hbe, hc, curMsgs_idle, List.append_nil]
    · show begunMsgs (a.trace ++ [TurnEv.start m a.sess]) ++ rest =
        enqMsgs (a.trace ++ [TurnEv.start m a.sess])
      simp only [begunMsgs_append, enqMsgs_append, begunMsgs_single_start,
        enqMsgs_single_start, List.append_nil]
      rw [List.append_assoc, List.singleton_append, ← hq]
      exact hfifo
    · show a.sess = (endedMsgs (a.trace ++ [TurnEv.start m a.sess])).foldl turnFn s0
      simp only [endedMsgs_append, endedMsgs_single_start, List.append_nil]
      exact hsess
    · intro t1 m' s' t2 heq
      simp only at heq
      rcases append_singleton_eq_cases _ _ _ _ _ heq with ⟨ht1, hev, _⟩ | ⟨t2', _, hin⟩
      · injection hev with hm hs
        subst ht1
        subst hs
        refine ⟨hsess, ?_⟩
        rw [hbe, hc, curMsgs_idle, List.append_nil]
      · exact hstarts t1 m' s' t2' hin
  | finish m hc =>
    refine ⟨?_, ?_, ?_, ?_⟩
    · show begunMsgs (a.trace ++ [TurnEv.finish m (turnFn a.sess m)]) =
        endedMsgs (a.trace ++ [TurnEv.finish m (turnFn a.sess m)]) ++ curMsgs .idle
      simp only [begunMsgs_append, endedMsgs_append, begunMsgs_single_finish,
        endedMsgs_single_finish, List.append_nil, curMsgs_idle]
      rw [hbe, hc, curMsgs_running]
    · show begunMsgs (a.trace ++ [TurnEv.finish m (turnFn a.sess m)]) ++ a.queue =
        enqMsgs (a.trace ++ [TurnEv.finish m (turnFn a.sess m)])
      simp only [begunMsgs_append, enqMsgs_append, begunMsgs_single_finish,
        enqMsgs_single_finish, List.append_nil]
      exact hfifo
    · show turnFn a.sess m =
        (endedMsgs (a.trace ++ [TurnEv.finish m (turnFn a.sess m)])).foldl turnFn s0
      simp only [endedMsgs_append, endedMsgs_single_finish]
      rw [List.foldl_append, List.foldl_cons, List.foldl_nil, hsess]
    · intro t1 m' s' t2 heq
      simp only at heq
      rcases append_singleton_eq_cases _ _ _ _ _ heq with ⟨_, hbad, _⟩ | ⟨t2', _, hin⟩
      · exact absurd hbad (by intro hcon; cases hcon)
      · exact hstarts t1 m' s' t2' hin

theorem convInv_of_reachable {S : Type} {turnFn : S → String → S} {s0 : S}
    {sys : ConvSys S} (h : ConvReachable turnFn s0 sys) :
    ConvInv turnFn s0 sys := by
  induction h with
  | init =>
    refine ⟨rfl, rfl, rfl, ?_⟩
    intro t1 m s t2 hcontra
    have hlen := congrArg List.length hcontra
    simp [convInit, List.length_append] at hlen
    exact absurd hlen (by omega)
  | step _ hst ih => exact convInv_step ih hst

/-- Claim C1: over every reachable state of the per-conversation
consumer system, (i) the begun turns followed by the still-queued
messages are exactly the enqueued messages in submission order, so
turns are processed one at a time in enqueue order; (ii) whenever a
turn starts, every previously begun turn has already finished (no two
turns for the conversation ever execute concurrently) and the state it
observes is exactly the fold of all previously committed turns over the
initial state — in particular the second of two back-to-back sends
observes all state mutations committed by the first. -/
theorem C1_single_flight {S : Type} (turnFn : S → String → S) (s0 : S)
    (sys : ConvSys S) (h : ConvReachable turnFn s0 sys) :
    (begunMsgs sys.trace ++ sys.queue = enqMsgs sys.trace)
    ∧ (∀ t1 m s t2, sys.trace = t1 ++ TurnEv.start m s :: t2 →
        begunMsgs t1 = endedMsgs t1 ∧ s = (endedMsgs t1).foldl turnFn s0) := by
  have inv := convInv_of_reachable h
  refine ⟨inv.fifo, ?_⟩
  intro t1 m s t2 ht
  obtain ⟨hs, hb⟩ := inv.starts_ok t1 m s t2 ht
  exact ⟨hb, hs⟩

def c1Turn : Nat → String → Nat := fun s _ => s + 1

/-- Witness for C1: a concrete two-message run — enqueue `m1`, enqueue
`m2`, process `m1` to completion, then process `m2` — is reachable; the
theorem instantiated on it yields the FIFO equation and, at the start
of the second turn, that the first turn had finished and its committed
state (here the turn counter 1) is exactly what the second turn
observes. -/
theorem C1_single_flight_witness :
    (begunMsgs [TurnEv.enq (S := Nat) "m1", TurnEv.enq "m2", TurnEv.start "m1" 0,
        TurnEv.finish "m1" 1, TurnEv.start "m2" 1, TurnEv.finish "m2" 2]
        ++ ([] : List String) =
      enqMsgs [TurnEv.enq (S := Nat) "m1", TurnEv.enq "m2", TurnEv.start "m1" 0,
        TurnEv.finish "m1" 1, TurnEv.start "m2" 1, TurnEv.finish "m2" 2])
    ∧ begunMsgs [TurnEv.enq (S := Nat) "m1", TurnEv.enq "m2", TurnEv.start "m1" 0,
        TurnEv.finish "m1" 1] =
      endedMsgs [TurnEv.enq (S := Nat) "m1", TurnEv.enq "m2", TurnEv.start "m1" 0,
        TurnEv.finish "m1" 1]
    ∧ (1 : Nat) = (endedMsgs [TurnEv.enq (S := Nat) "m1", TurnEv.enq "m2",
        TurnEv.start "m1" 0, TurnEv.finish "m1" 1]).foldl c1Turn 0 := by
  have h0 : ConvReachable c1Turn 0 (convInit 0) := ConvReachable.init
  have h1 : ConvReachable c1Turn 0 ⟨["m1"], .idle, 0, [TurnEv.enq "m1"]⟩ :=
    h0.step (ConvStep.enqueue _ "m1" (by decide))
  have h2 : ConvReachable c1Turn 0
      ⟨["m1", "m2"], .idle, 0, [TurnEv.enq "m1", TurnEv.enq "m2"]⟩ :=
    h1.step (ConvStep.enqueue _ "m2" (by decide))
  have h3 : ConvReachable c1Turn 0
      ⟨["m2"], .running "m1", 0,
        [TurnEv.enq "m1", TurnEv.enq "m2", TurnEv.start "m1" 0]⟩ :=
    h2.step (ConvStep.dequeue _ "m1" ["m2"] rfl rfl)
  have h4 : ConvReachable c1Turn 0
      ⟨["m2"], .idle, 1,
        [TurnEv.enq "m1", TurnEv.enq "m2", TurnEv.start "m1" 0,
         TurnEv.finish "m1" 1]⟩ :=
    h3.step (ConvStep.finish _ "m1" rfl)
  have h5 : ConvReachable c1Turn 0
      ⟨[], .running "m2", 1,
        [TurnEv.enq "m1", TurnEv.enq "m2", TurnEv.start "m1" 0,
         TurnEv.finish "m1" 1, TurnEv.start "m2" 1]⟩ :=
    h4.step (ConvStep.dequeue _ "m2" [] rfl rfl)
  have h6 : ConvReachable c1Turn 0
      ⟨[], .idle, 2,
        [TurnEv.enq "m1", TurnEv.enq "m2", TurnEv.start "m1" 0,
         TurnEv.finish "m1" 1, TurnEv.start "m2" 1, TurnEv.finish "m2" 2]⟩ :=
    h5.step (ConvStep.finish _ "m2" rfl)
  have hmain := C1_single_flight c1Turn 0 _ h6
  have hstart := hmain.2
    [TurnEv.enq "m1", TurnEv.enq "m2", TurnEv.start "m1" 0, TurnEv.finish "m1" 1]
    "m2" 1 [TurnEv.finish "m2" 2] rfl
  exact ⟨hmain.1, hstart.1, hstart.2⟩

end Agents
